import Mathlib

/-!
Shallow embedding of `src/image_processing/train.py` (CAPTCHA CNN training
script): the `ImageSequence` data feeder, `create_model`, and `main`'s
configuration checking and interrupt handling.

Python strings are embedded as `List Char` (named `Str` here); `os.listdir`
results are an explicit listing parameter; the pseudo-random choices made by
`random.choice` are an explicit oracle (a list of natural numbers, one per
draw, interpreted modulo the current pool size).  Image pixel data (the `X`
tensor, produced by OpenCV calls) is outside the claims and is not modelled;
the label tensors `y` are modelled exactly.
-/

namespace CaptchaTrain

/-- Python strings are modelled as lists of characters. -/
abbrev Str := List Char

/-- Python `x.split('.')[0]`: the prefix of a filename before the first `'.'`
(the whole string when there is no `'.'`).  Used in `ImageSequence.__init__`
and in the mid-batch refill to key the pool of available files. -/
def fileKey (f : Str) : Str := f.takeWhile (fun c => c ≠ '.')

/-- Python `label.split('_')[0]`: the text before the first `'_'`, used as the
ground-truth label of a sample (train.py line 87). -/
def labelOf (k : Str) : Str := k.takeWhile (fun c => c ≠ '_')

/-- First index of `c` in the list, if any (helper for Python `str.find`). -/
def findIndex (c : Char) : Str → Option Nat
  | [] => none
  | x :: xs => if x = c then some 0 else (findIndex c xs).map (· + 1)

/-- Python `s.find(c)`: the first index of `c` in `s`, or `-1` when `c` does
not occur (train.py line 91). -/
def strFind (s : Str) (c : Char) : Int :=
  match findIndex c s with
  | some i => (i : Int)
  | none => -1

/-- Numpy-style element assignment `row[k] = v` with Python index semantics:
a negative index `k` addresses position `len + k`; an index out of the range
`[-len, len)` raises `IndexError` (here: `none`). -/
def npSet (row : List Nat) (k : Int) (v : Nat) : Option (List Nat) :=
  if 0 ≤ k ∧ k < (row.length : Int) then some (row.set k.toNat v)
  else if -(row.length : Int) ≤ k ∧ k < 0 then
    some (row.set ((row.length : Int) + k).toNat v)
  else none

/-- The per-character label row produced by train.py lines 90-91:
`y[j][i, :] = 0` followed by `y[j][i, symbols.find(ch)] = 1`, i.e. a fresh
all-zero row of width `symbols.length` with a single `1` written at the
(possibly negative, hence wrapping) index returned by `find`. -/
def encodeChar (symbols : Str) (c : Char) : Option (List Nat) :=
  npSet (List.replicate symbols.length 0) (strFind symbols c) 1

/-- The loop `for j, ch in enumerate(random_image_label)` of train.py lines
89-91, updating row `i` of each of the `captchaLength` label arrays.  The
accumulator `rows` holds the current value of those rows; accessing `y[j]`
for `j ≥ captchaLength` raises `IndexError` (here: `none`). -/
def encodeLabelAux (captchaLength : Nat) (symbols : Str) :
    List Char → Nat → List (List Nat) → Option (List (List Nat))
  | [], _, rows => some rows
  | c :: cs, j, rows =>
    if j < captchaLength then
      match encodeChar symbols c with
      | some row => encodeLabelAux captchaLength symbols cs (j + 1) (rows.set j row)
      | none => none
    else none

/-- The rows `y[0][i], …, y[captchaLength-1][i]` written for one sample whose
label is `label`: initially all zeros (train.py lines 62-63), then updated by
the per-character loop. -/
def encodeLabel (captchaLength : Nat) (symbols : Str) (label : Str) :
    Option (List (List Nat)) :=
  encodeLabelAux captchaLength symbols label 0
    (List.replicate captchaLength (List.replicate symbols.length 0))

/-- Python `d[k] = v` on a dict represented as an association list in
insertion order: an existing key keeps its position and gets the new value,
a new key is appended. -/
def dictInsert (d : List (Str × Str)) (k v : Str) : List (Str × Str) :=
  if k ∈ d.map Prod.fst then d.map (fun p => if p.1 = k then (k, v) else p)
  else d ++ [(k, v)]

/-- `dict(zip(map(lambda x: x.split('.')[0], file_list), file_list))`
(train.py lines 51-52 and 70-71): the pool of available files, keyed by the
filename prefix before the first `'.'`; a later entry with the same key
overwrites the earlier one. -/
def buildFiles (fl : List Str) : List (Str × Str) :=
  fl.foldl (fun d f => dictInsert d (fileKey f) f) []

/-- Python `d[k]` on the association-list dict (first — and, with distinct
keys, only — entry with key `k`). -/
def dictGet (d : List (Str × Str)) (k : Str) : Option Str :=
  match d with
  | [] => none
  | p :: rest => if p.1 = k then some p.2 else dictGet rest k

/-- Python `d.pop(k)`'s effect on the dict: remove the entry with key `k`,
preserving the order of the others. -/
def dictPop (d : List (Str × Str)) (k : Str) : List (Str × Str) :=
  match d with
  | [] => []
  | p :: rest => if p.1 = k then rest else p :: dictPop rest k

/-- The mutable state of an `ImageSequence`: `self.files` (the pool),
`self.used_files`, and a ghost refill-generation counter `gen` (0 for the
pool built by `__init__`, incremented at each mid-batch refill) used to
phrase properties about draws between consecutive refills. -/
structure FeederState where
  files : List (Str × Str)
  usedFiles : List Str
  gen : Nat
deriving DecidableEq, Repr

/-- `ImageSequence.__init__` (train.py lines 50-53): build the pool from the
directory listing, with an empty used-files record. -/
def initFeeder (listing : List Str) : FeederState :=
  { files := buildFiles listing, usedFiles := [], gen := 0 }

/-- `self.count = len(file_list)` (train.py line 54): the number of directory
entries listed at construction time. -/
def initCount (listing : List Str) : Nat := listing.length

/-- `ImageSequence.__len__` (train.py lines 56-57):
`int(numpy.floor(count / batch_size))`.  Nat division is floor division;
Python raises `ZeroDivisionError` for `batch_size = 0` (here: `none`). -/
def imageSequenceLen (count batchSize : Nat) : Option Nat :=
  if batchSize = 0 then none else some (count / batchSize)

/-- One drawn sample: the chosen pool key, the filename it mapped to, and the
(ghost) refill generation the sample was drawn from. -/
structure Draw where
  key : Str
  file : Str
  gen : Nat
deriving DecidableEq, Repr

/-- Train.py lines 66-71: if the pool is empty, clear `used_files` and
rebuild the pool as a whole from a fresh `os.listdir` (the listing of the
next generation). -/
def refillIfEmpty (listings : Nat → List Str) (st : FeederState) : FeederState :=
  if st.files = [] then
    { files := buildFiles (listings (st.gen + 1)), usedFiles := [], gen := st.gen + 1 }
  else st

/-- Train.py lines 73-77 (no refill): `random.choice(list(self.files.keys()))`
modelled by the oracle index `c` taken modulo the pool size, then
`self.files[key]`, then `self.used_files.append(self.files.pop(key))`.
`random.choice` on an empty pool raises `IndexError` (here: `none`). -/
def drawFromPool (st : FeederState) (c : Nat) : Option (Draw × FeederState) :=
  match (st.files.map Prod.fst)[c % st.files.length]? with
  | none => none
  | some key =>
    match dictGet st.files key with
    | none => none
    | some file =>
      some ({ key := key, file := file, gen := st.gen },
            { files := dictPop st.files key,
              usedFiles := st.usedFiles ++ [file],
              gen := st.gen })

/-- One iteration of the draw part of the `__getitem__` loop (train.py lines
66-77): refill when the pool is empty, then draw. -/
def drawOne (listings : Nat → List Str) (st : FeederState) (c : Nat) :
    Option (Draw × FeederState) :=
  drawFromPool (refillIfEmpty listings st) c

/-- The full `for i in range(self.batch_size)` loop of `__getitem__`
(train.py lines 65-91), one oracle value per iteration: draw a sample, then
encode its label (`random_image_label.split('_')[0]`) into the label rows of
sample `i`.  Any Python exception (empty directory, out-of-range `y[j]`,
empty alphabet with an unmapped character) aborts the call (here: `none`). -/
def getItemLoop (listings : Nat → List Str) (captchaLength : Nat) (symbols : Str) :
    List Nat → FeederState → Option (List (Draw × List (List Nat)) × FeederState)
  | [], st => some ([], st)
  | c :: cs, st =>
    match drawOne listings st c with
    | none => none
    | some (d, st1) =>
      match encodeLabel captchaLength symbols (labelOf d.key) with
      | none => none
      | some e =>
        match getItemLoop listings captchaLength symbols cs st1 with
        | none => none
        | some (rest, st') => some ((d, e) :: rest, st')

/-- Assemble the returned label arrays from the per-sample encodings: the
batch starts as `captchaLength` all-zero arrays (train.py lines 62-63) and
sample `i` writes exactly the cells `y[j][i]`, so array `j` of the result has
row `i` equal to row `j` of sample `i`'s encoding. -/
def buildY (captchaLength : Nat) (encs : List (List (List Nat))) :
    List (List (List Nat)) :=
  (List.range captchaLength).map (fun j => encs.map (fun e => e.getD j []))

/-- `ImageSequence.__getitem__` (train.py lines 59-93), restricted to the
label tensors `y` (the image tensor `X` is not modelled): returns the label
arrays, the final feeder state, and the list of draws; the number of oracle
values `cs` plays the role of `self.batch_size`. -/
def getItem (listings : Nat → List Str) (captchaLength : Nat) (symbols : Str)
    (st : FeederState) (cs : List Nat) :
    Option (List (List (List Nat)) × FeederState × List Draw) :=
  match getItemLoop listings captchaLength symbols cs st with
  | none => none
  | some (pairs, st') =>
    some (buildY captchaLength (pairs.map Prod.snd), st', pairs.map Prod.fst)

/-- The label arrays of a `__getitem__` call, when it succeeds. -/
def getItemY (listings : Nat → List Str) (captchaLength : Nat) (symbols : Str)
    (st : FeederState) (cs : List Nat) : Option (List (List (List Nat))) :=
  match getItem listings captchaLength symbols st cs with
  | none => none
  | some (y, _, _) => some y

/-- The refill generations of the draws of a `__getitem__` loop run. -/
def drawGens (r : Option (List (Draw × List (List Nat)) × FeederState)) :
    Option (List Nat) :=
  r.map (fun x => x.1.map (fun p => p.1.gen))

/-- Invariant of the feeder pool, established by `__init__` and preserved by
every draw and refill: the pool's keys are pairwise distinct (it is a dict),
and every entry's key is the filename prefix of its value. -/
def FeederInv (st : FeederState) : Prop :=
  (st.files.map Prod.fst).Nodup ∧ ∀ p ∈ st.files, p.1 = fileKey p.2

instance (st : FeederState) : Decidable (FeederInv st) := by
  unfold FeederInv; infer_instance

/-! ### `create_model` (train.py lines 19-35) -/

/-- A Keras layer of the convolutional trunk, with the parameters the script
passes (`padding='same'` and `kernel_initializer='he_uniform'` are fixed for
every `Conv2D` and are not repeated here). -/
inductive Layer where
  | conv2D (filters kernelSize : Nat)
  | batchNorm
  | activation (name : String)
  | maxPooling2D (poolSize : Nat)
  | flatten
deriving DecidableEq, Repr

/-- One output head: `keras.layers.Dense(units, activation, name)` applied to
the shared flattened trunk output. -/
structure DenseHead where
  units : Nat
  activation : String
  name : String
deriving DecidableEq, Repr

/-- The network `create_model` builds: a single trunk (a layer list applied
to the input tensor) and a list of heads, each applied to the same trunk
output — the sharing of the trunk is structural: there is one `trunk` and
every element of `heads` reads it. -/
structure Model where
  inputShape : Nat × Nat × Nat
  trunk : List Layer
  heads : List DenseHead
deriving DecidableEq, Repr

/-- `'char_%d' % n`: the name of the `n`-th output head. -/
def charName (n : Nat) : String := "char_" ++ toString n

/-- The activation name passed to `keras.layers.Activation`. -/
def reluName : String := "relu"

/-- The three layers of one inner `for j in range(module_length)` iteration
(train.py lines 24-27): `Conv2D(32 * 2 ** min(i, 3), kernel_size=3)`, then
`BatchNormalization`, then `Activation('relu')`. -/
def moduleLayers (i : Nat) : List Layer :=
  [Layer.conv2D (32 * 2 ^ min i 3) 3, Layer.batchNorm, Layer.activation reluName]

/-- One outer iteration (train.py lines 22-28): `moduleSize` repetitions of
the conv module followed by `MaxPooling2D(2)`. -/
def blockLayers (moduleSize i : Nat) : List Layer :=
  (List.range moduleSize).foldr (fun _ acc => moduleLayers i ++ acc) []
    ++ [Layer.maxPooling2D 2]

/-- The whole trunk: `modelDepth` blocks (the python iterates over
`[module_size] * model_depth` with index `i`) followed by `Flatten`. -/
def trunkLayers (modelDepth moduleSize : Nat) : List Layer :=
  (List.range modelDepth).foldr (fun i acc => blockLayers moduleSize i ++ acc) []
    ++ [Layer.flatten]

/-- `create_model(captcha_length, captcha_num_symbols, input_shape,
model_depth=5, module_size=2)` (train.py lines 19-35): the shared trunk plus
`captcha_length` heads `Dense(captcha_num_symbols, activation='softmax',
name='char_%d' % (i + 1))`, all applied to the same flattened trunk output. -/
def create_model (captchaLength captchaNumSymbols : Nat)
    (inputShape : Nat × Nat × Nat) (modelDepth : Nat := 5) (moduleSize : Nat := 2) :
    Model :=
  { inputShape := inputShape
    trunk := trunkLayers modelDepth moduleSize
    heads := (List.range captchaLength).map (fun i =>
      { units := captchaNumSymbols, activation := "softmax",
        name := charName (i + 1) }) }

/-! ### `main` (train.py lines 96-199) -/

/-- The parsed argparse namespace: every flag is optional at parse time
(argparse leaves an unpassed flag as `None`). -/
structure Args where
  width : Option Int
  height : Option Int
  length : Option Int
  batchSize : Option Int
  trainDataset : Option String
  validateDataset : Option String
  outputModelName : Option String
  inputModel : Option String
  epochs : Option Int
  symbols : Option String
deriving DecidableEq, Repr

/-- The configuration surviving the sequence of `None` checks. -/
structure Config where
  width : Int
  height : Int
  length : Int
  batchSize : Int
  epochs : Int
  trainDataset : String
  validateDataset : String
  outputModelName : String
  symbols : String
  inputModel : Option String
deriving DecidableEq, Repr

def msgWidth : String := "Please specify the captcha image width"

def msgHeight : String := "Please specify the captcha image height"

def msgLength : String := "Please specify the captcha length"

def msgBatchSize : String := "Please specify the training batch size"

def msgEpochs : String := "Please specify the number of training epochs to run"

def msgTrainDataset : String := "Please specify the path to the training data set"

def msgValidateDataset : String := "Please specify the path to the validation data set"

def msgOutputModelName : String := "Please specify a name for the trained model"

def msgSymbols : String := "Please specify the captcha symbols file"

/-- The sequence of `if args.x is None: print(...); exit(1)` checks of
train.py lines 118-152, in source order: width, height, length, batch size,
epochs, train dataset, validate dataset, output model name, symbols.  The
error value is the printed message together with the exit code 1. -/
def checkArgs (a : Args) : Except (String × Nat) Config :=
  match a.width with
  | none => .error (msgWidth, 1)
  | some w =>
  match a.height with
  | none => .error (msgHeight, 1)
  | some h =>
  match a.length with
  | none => .error (msgLength, 1)
  | some l =>
  match a.batchSize with
  | none => .error (msgBatchSize, 1)
  | some b =>
  match a.epochs with
  | none => .error (msgEpochs, 1)
  | some e =>
  match a.trainDataset with
  | none => .error (msgTrainDataset, 1)
  | some t =>
  match a.validateDataset with
  | none => .error (msgValidateDataset, 1)
  | some v =>
  match a.outputModelName with
  | none => .error (msgOutputModelName, 1)
  | some o =>
  match a.symbols with
  | none => .error (msgSymbols, 1)
  | some s =>
  .ok { width := w, height := h, length := l, batchSize := b, epochs := e,
        trainDataset := t, validateDataset := v, outputModelName := o,
        symbols := s, inputModel := a.inputModel }

/-- A Python exception reaching the `try` block around `model.fit`. -/
inductive PyExc where
  | keyboardInterrupt
  | other (name : String)
deriving DecidableEq, Repr

/-- The outcome of the (opaque, backend-driven) `model.fit` call, supplied as
an oracle: it either completes or raises some exception. -/
inductive FitOutcome where
  | completed
  | raised (e : PyExc)
deriving DecidableEq, Repr

/-- Observable side effects of the `try`/`except` region of train.py lines
187-199. -/
inductive Effect where
  | fitCalled
  | printed (msg : String)
  | savedWeights (path : String)
deriving DecidableEq, Repr

/-- Train.py lines 187-199: run `model.fit`; on `KeyboardInterrupt`, print a
message and `model.save_weights(output_model_name + '_resume.h5')`, then fall
off the end of `main` normally (`.ok`); any other exception propagates
(`.error`); normal completion just returns. -/
def trainBlockResult (outputModelName : String) (fit : FitOutcome) :
    Except PyExc (List Effect) :=
  match fit with
  | .completed => .ok [.fitCalled]
  | .raised .keyboardInterrupt =>
    .ok [.fitCalled,
         .printed ("KeyboardInterrupt caught, saving current weights as "
           ++ outputModelName ++ "_resume.h5"),
         .savedWeights (outputModelName ++ "_resume.h5")]
  | .raised (.other n) => .error (.other n)

/-- What a `main` invocation does: either it exits early with a printed
message and an exit code (before any model is built or any feeder is
constructed), or it builds the model and runs the training block.  The
`.ran` constructor carries the built model, witnessing that a model exists
only on this branch. -/
inductive MainOutcome where
  | exitWith (msg : String) (code : Nat)
  | ran (model : Model) (result : Except PyExc (List Effect))
deriving Repr

/-- `main` (train.py lines 96-199), with the symbols-file line and the fit
outcome as oracles: check the arguments in order; on failure exit with the
message and code 1; otherwise build
`create_model(length, len(symbols), (height, width, 3))` and run training. -/
def mainRun (a : Args) (symbolsLine : Str) (fit : FitOutcome) : MainOutcome :=
  match checkArgs a with
  | .error (m, c) => .exitWith m c
  | .ok cfg =>
    .ran (create_model cfg.length.toNat symbolsLine.length
            (cfg.height.toNat, cfg.width.toNat, 3))
         (trainBlockResult cfg.outputModelName fit)

/-! ### Concrete demonstration inputs -/

/-- One file whose label (`z`) is not in the alphabet `ab`. -/
def demoListing1 : List Str := [['z', '_', '1', '.', 'p']]

/-- Two files with two-character labels `ab` and `ba`. -/
def demoListing2 : List Str := [['a', 'b', '.', 'p'], ['b', 'a', '.', 'q']]

/-- Three directory entries, two of which share the prefix `a` before the
first `'.'`. -/
def demoListing3 : List Str := [['a', '.', 'p'], ['a', '.', 'q'], ['b', '.', 'p']]

/-- A single-file directory: a batch of two samples must refill mid-batch. -/
def demoListing4 : List Str := [['a', '.', 'p']]

/-! ### Helper lemmas: lists -/

theorem getD_mem {α : Type} (l : List α) (j : Nat) (d : α) (h : j < l.length) :
    l.getD j d ∈ l := by
  induction l generalizing j with
  | nil => simp at h
  | cons a t ih =>
    cases j with
    | zero => simp [List.getD]
    | succ j =>
      simp only [List.length_cons, Nat.succ_lt_succ_iff] at h
      simpa [List.getD] using Or.inr (ih j h)

theorem getD_set_self {α : Type} (l : List α) (j : Nat) (r d : α)
    (h : j < l.length) : (l.set j r).getD j d = r := by
  induction l generalizing j with
  | nil => simp at h
  | cons a t ih =>
    cases j with
    | zero => simp [List.getD]
    | succ j =>
      simp only [List.length_cons, Nat.succ_lt_succ_iff] at h
      simpa [List.getD] using ih j h

theorem getD_set_ne {α : Type} (l : List α) (j k : Nat) (r d : α)
    (h : k ≠ j) : (l.set j r).getD k d = l.getD k d := by
  induction l generalizing j k with
  | nil => simp
  | cons a t ih =>
    cases j with
    | zero =>
      cases k with
      | zero => exact absurd rfl h
      | succ k => simp [List.getD]
    | succ j =>
      cases k with
      | zero => simp [List.getD]
      | succ k =>
        simpa [List.getD] using ih j k (fun hkj => h (by omega))

theorem sum_replicate_set (n i : Nat) (h : i < n) :
    ((List.replicate n 0).set i 1).sum = 1 := by
  induction n generalizing i with
  | zero => omega
  | succ n ih =>
    cases i with
    | zero => simp [List.replicate_succ]
    | succ i =>
      have : i < n := by omega
      simp [List.replicate_succ, ih i this]

/-! ### Helper lemmas: label encoding -/

theorem findIndex_some_lt (c : Char) (l : Str) (i : Nat)
    (h : findIndex c l = some i) : i < l.length := by
  induction l generalizing i with
  | nil => simp [findIndex] at h
  | cons x xs ih =>
    by_cases hx : x = c
    · simp [findIndex, hx] at h
      simp only [List.length_cons]
      omega
    · simp [findIndex, hx] at h
      obtain ⟨i', hi', rfl⟩ := h
      have := ih i' hi'
      simp only [List.length_cons]
      omega

theorem findIndex_isSome_of_mem (c : Char) (l : Str) (h : c ∈ l) :
    ∃ i, findIndex c l = some i := by
  induction l with
  | nil => simp at h
  | cons x xs ih =>
    by_cases hx : x = c
    · exact ⟨0, by simp [findIndex, hx]⟩
    · have hmem : c ∈ xs := by
        rcases List.mem_cons.mp h with h1 | h1
        · exact absurd h1.symm hx
        · exact h1
      obtain ⟨i, hi⟩ := ih hmem
      exact ⟨i + 1, by simp [findIndex, hx, hi]⟩

theorem findIndex_none_of_not_mem (c : Char) (l : Str) (h : c ∉ l) :
    findIndex c l = none := by
  induction l with
  | nil => simp [findIndex]
  | cons x xs ih =>
    have hx : x ≠ c := fun hxc => h (by simp [hxc])
    have hmem : c ∉ xs := fun hc => h (by simp [hc])
    simp [findIndex, hx, ih hmem]

theorem encodeChar_some_spec (sym : Str) (c : Char) (r : List Nat)
    (h : encodeChar sym c = some r) : r.sum = 1 ∧ r.length = sym.length := by
  unfold encodeChar npSet at h
  split at h
  · rename_i hin
    obtain ⟨h1, h2⟩ := hin
    have hlt : (strFind sym c).toNat < sym.length := by
      simp only [List.length_replicate] at h2
      omega
    simp only [Option.some.injEq] at h
    subst h
    refine ⟨sum_replicate_set _ _ (by simpa using hlt), by simp⟩
  · split at h
    · rename_i hin
      obtain ⟨h1, h2⟩ := hin
      have hlen : 0 < sym.length := by
        simp only [List.length_replicate] at h1 h2
        omega
      simp only [Option.some.injEq] at h
      subst h
      constructor
      · apply sum_replicate_set
        simp only [List.length_replicate]
        omega
      · simp
    · exact absurd h (by simp)

theorem encodeChar_mem (sym : Str) (c : Char) (h : c ∈ sym) :
    ∃ i, i < sym.length ∧
      encodeChar sym c = some ((List.replicate sym.length 0).set i 1) := by
  obtain ⟨i, hi⟩ := findIndex_isSome_of_mem c sym h
  have hlt := findIndex_some_lt c sym i hi
  refine ⟨i, hlt, ?_⟩
  unfold encodeChar npSet strFind
  rw [hi]
  have hpos : (0 : Int) ≤ (i : Int) := by positivity
  have hlt' : (i : Int) < ((List.replicate sym.length (0 : Nat)).length : Int) := by
    simp only [List.length_replicate]
    exact_mod_cast hlt
  rw [if_pos ⟨hpos, hlt'⟩]
  simp

theorem encodeChar_not_mem (sym : Str) (c : Char) (h : c ∉ sym)
    (hne : sym ≠ []) :
    encodeChar sym c = some ((List.replicate sym.length 0).set (sym.length - 1) 1) := by
  have hlen : 0 < sym.length := List.length_pos.mpr hne
  unfold encodeChar npSet strFind
  rw [findIndex_none_of_not_mem c sym h]
  have h1 : ¬ ((0 : Int) ≤ -1 ∧ (-1 : Int) < ((List.replicate sym.length (0 : Nat)).length : Int)) := by
    simp
  have h2 : -(((List.replicate sym.length (0 : Nat)).length : Int)) ≤ -1 ∧ (-1 : Int) < 0 := by
    constructor
    · simp only [List.length_replicate]
      omega
    · omega
  rw [if_neg h1, if_pos h2]
  congr 1
  congr 1
  simp only [List.length_replicate]
  omega

theorem encodeLabelAux_length (L : Nat) (sym : Str) (cs : List Char) (j : Nat)
    (rows e : List (List Nat))
    (h : encodeLabelAux L sym cs j rows = some e) : e.length = rows.length := by
  induction cs generalizing j rows with
  | nil =>
    simp only [encodeLabelAux, Option.some.injEq] at h
    subst h; rfl
  | cons c cs ih =>
    simp only [encodeLabelAux] at h
    split at h
    · cases hec : encodeChar sym c with
      | none => rw [hec] at h; simp at h
      | some row =>
        rw [hec] at h
        have := ih (j + 1) (rows.set j row) h
        simpa using this
    · simp at h

theorem encodeLabelAux_none_of_long (L : Nat) (sym : Str) (cs : List Char)
    (j : Nat) (rows : List (List Nat)) (hj : j ≤ L) (hlong : L < j + cs.length) :
    encodeLabelAux L sym cs j rows = none := by
  induction cs generalizing j rows with
  | nil => simp at hlong; omega
  | cons c cs ih =>
    simp only [encodeLabelAux]
    split
    · rename_i hjL
      cases hec : encodeChar sym c with
      | none => rfl
      | some row =>
        apply ih (j + 1) (rows.set j row) (by omega)
        simp only [List.length_cons] at hlong
        omega
    · rfl

theorem encodeLabel_none_of_long (L : Nat) (sym : Str) (label : Str)
    (h : L < label.length) : encodeLabel L sym label = none := by
  unfold encodeLabel
  exact encodeLabelAux_none_of_long L sym label 0 _ (by omega) (by omega)

theorem encodeLabel_some_length_le (L : Nat) (sym : Str) (label : Str)
    (e : List (List Nat)) (h : encodeLabel L sym label = some e) :
    label.length ≤ L := by
  by_contra hlt
  rw [encodeLabel_none_of_long L sym label (by omega)] at h
  exact Option.noConfusion h

theorem encodeLabel_some_length (L : Nat) (sym : Str) (label : Str)
    (e : List (List Nat)) (h : encodeLabel L sym label = some e) :
    e.length = L := by
  have := encodeLabelAux_length L sym label 0 _ e h
  simpa using this

theorem exists_getD_of_mem {α : Type} {l : List α} {a : α} (d : α)
    (h : a ∈ l) : ∃ k, k < l.length ∧ l.getD k d = a := by
  induction l with
  | nil => simp at h
  | cons x xs ih =>
    rcases List.mem_cons.mp h with h1 | h1
    · exact ⟨0, by simp [List.getD, h1.symm]⟩
    · obtain ⟨k, hk, hget⟩ := ih h1
      exact ⟨k + 1, by simpa using hk, by simpa [List.getD] using hget⟩

theorem encodeLabelAux_getD_lt (L : Nat) (sym : Str) (cs : List Char)
    (j : Nat) (rows e : List (List Nat))
    (h : encodeLabelAux L sym cs j rows = some e) :
    ∀ k, k < j → e.getD k [] = rows.getD k [] := by
  induction cs generalizing j rows with
  | nil =>
    simp only [encodeLabelAux, Option.some.injEq] at h
    subst h; intro k _; rfl
  | cons c cs ih =>
    simp only [encodeLabelAux] at h
    split at h
    · cases hec : encodeChar sym c with
      | none => rw [hec] at h; simp at h
      | some row =>
        rw [hec] at h
        intro k hk
        rw [ih (j + 1) (rows.set j row) h k (by omega)]
        exact getD_set_ne rows j k row [] (by omega)
    · simp at h

theorem encodeLabelAux_getD_encoded (L : Nat) (sym : Str) (cs : List Char)
    (j : Nat) (rows e : List (List Nat))
    (h : encodeLabelAux L sym cs j rows = some e) (hrows : rows.length = L) :
    ∀ t, t < cs.length →
      e.getD (j + t) [] = (encodeChar sym (cs.getD t 'a')).getD [] := by
  induction cs generalizing j rows with
  | nil => intro t ht; simp at ht
  | cons c cs ih =>
    simp only [encodeLabelAux] at h
    split at h
    · rename_i hjL
      cases hec : encodeChar sym c with
      | none => rw [hec] at h; simp at h
      | some row =>
        rw [hec] at h
        intro t ht
        cases t with
        | zero =>
          have hlt := encodeLabelAux_getD_lt L sym cs (j + 1) _ e h j (by omega)
          rw [Nat.add_zero, hlt, getD_set_self rows j row [] (by omega)]
          simp [List.getD, hec]
        | succ t =>
          have := ih (j + 1) (rows.set j row) h (by simpa using hrows) t
            (by simpa using ht)
          have harith : j + (t + 1) = (j + 1) + t := by omega
          rw [harith]
          simpa [List.getD] using this
    · simp at h

theorem encodeLabelAux_sum_one (L : Nat) (sym : Str) (cs : List Char)
    (j : Nat) (rows e : List (List Nat))
    (h : encodeLabelAux L sym cs j rows = some e) (hrows : rows.length = L)
    (hfull : j + cs.length = L)
    (hdone : ∀ k, k < j → (rows.getD k []).sum = 1 ∧
      (rows.getD k []).length = sym.length) :
    ∀ row ∈ e, row.sum = 1 ∧ row.length = sym.length := by
  induction cs generalizing j rows with
  | nil =>
    simp only [encodeLabelAux, Option.some.injEq] at h
    subst h
    intro row hrow
    obtain ⟨k, hk, hget⟩ := exists_getD_of_mem ([] : List Nat) hrow
    have hj : k < j := by simp at hfull; omega
    rw [← hget]
    exact hdone k hj
  | cons c cs ih =>
    simp only [encodeLabelAux] at h
    split at h
    · rename_i hjL
      cases hec : encodeChar sym c with
      | none => rw [hec] at h; simp at h
      | some row0 =>
        rw [hec] at h
        refine ih (j + 1) (rows.set j row0) h (by simpa using hrows) ?_ ?_
        · simp only [List.length_cons] at hfull
          omega
        · intro k hk
          by_cases hkj : k = j
          · subst hkj
            rw [getD_set_self rows k row0 [] (by omega)]
            exact encodeChar_some_spec sym c row0 hec
          · rw [getD_set_ne rows j k row0 [] hkj]
            exact hdone k (by omega)
    · simp at h

theorem encodeLabel_sum_one (L : Nat) (sym : Str) (label : Str)
    (e : List (List Nat)) (h : encodeLabel L sym label = some e)
    (hfull : label.length = L) :
    ∀ row ∈ e, row.sum = 1 ∧ row.length = sym.length := by
  refine encodeLabelAux_sum_one L sym label 0 _ e h (by simp) (by simpa) ?_
  intro k hk
  omega

theorem encodeLabel_getD_encoded (L : Nat) (sym : Str) (label : Str)
    (e : List (List Nat)) (h : encodeLabel L sym label = some e) :
    ∀ t, t < label.length →
      e.getD t [] = (encodeChar sym (label.getD t 'a')).getD [] := by
  intro t ht
  have := encodeLabelAux_getD_encoded L sym label 0 _ e h (by simp) t ht
  simpa using this

/-! ### Helper lemmas: the file pool -/

theorem map_fst_update (d : List (Str × Str)) (k v : Str) :
    (d.map (fun p => if p.1 = k then (k, v) else p)).map Prod.fst =
      d.map Prod.fst := by
  induction d with
  | nil => rfl
  | cons p rest ih =>
    by_cases hp : p.1 = k
    · simp [hp, ih]
    · simp [hp, ih]

theorem dictInsert_keys_nodup (d : List (Str × Str)) (k v : Str)
    (h : (d.map Prod.fst).Nodup) :
    ((dictInsert d k v).map Prod.fst).Nodup := by
  unfold dictInsert
  split
  · rw [map_fst_update]; exact h
  · rename_i hk
    rw [List.map_append]
    rw [List.nodup_append]
    refine ⟨h, by simp, ?_⟩
    intro a ha hb
    simp at hb
    subst hb
    exact hk ha

theorem dictInsert_keyfn (d : List (Str × Str)) (k v : Str)
    (h : ∀ p ∈ d, p.1 = fileKey p.2) (hkv : k = fileKey v) :
    ∀ p ∈ dictInsert d k v, p.1 = fileKey p.2 := by
  unfold dictInsert
  split
  · intro p hp
    obtain ⟨q, hq, hpq⟩ := List.mem_map.mp hp
    by_cases hqk : q.1 = k
    · rw [if_pos hqk] at hpq
      subst hpq
      exact hkv
    · rw [if_neg hqk] at hpq
      subst hpq
      exact h q hq
  · intro p hp
    rcases List.mem_append.mp hp with h1 | h1
    · exact h p h1
    · simp at h1
      subst h1
      exact hkv

theorem buildFiles_inv (fl : List Str) :
    ((buildFiles fl).map Prod.fst).Nodup ∧
      ∀ p ∈ buildFiles fl, p.1 = fileKey p.2 := by
  unfold buildFiles
  suffices h : ∀ (fl : List Str) (d : List (Str × Str)),
      (d.map Prod.fst).Nodup → (∀ p ∈ d, p.1 = fileKey p.2) →
      ((fl.foldl (fun d f => dictInsert d (fileKey f) f) d).map Prod.fst).Nodup ∧
        ∀ p ∈ fl.foldl (fun d f => dictInsert d (fileKey f) f) d,
          p.1 = fileKey p.2 by
    exact h fl [] (by simp) (by simp)
  intro fl
  induction fl with
  | nil => intro d h1 h2; exact ⟨h1, h2⟩
  | cons f fl ih =>
    intro d h1 h2
    exact ih (dictInsert d (fileKey f) f)
      (dictInsert_keys_nodup d (fileKey f) f h1)
      (dictInsert_keyfn d (fileKey f) f h2 rfl)

theorem initFeeder_inv (listing : List Str) : FeederInv (initFeeder listing) :=
  buildFiles_inv listing

theorem dictGet_mem (d : List (Str × Str)) (k v : Str)
    (h : dictGet d k = some v) : (k, v) ∈ d := by
  induction d with
  | nil => simp [dictGet] at h
  | cons p rest ih =>
    unfold dictGet at h
    split at h
    · rename_i hp
      simp only [Option.some.injEq] at h
      subst h
      exact List.mem_cons.mpr (Or.inl (by rw [← hp]))
    · exact List.mem_cons.mpr (Or.inr (ih h))

theorem dictPop_sublist (d : List (Str × Str)) (k : Str) :
    List.Sublist (dictPop d k) d := by
  induction d with
  | nil => simp [dictPop]
  | cons p rest ih =>
    unfold dictPop
    split
    · exact List.sublist_cons_self p rest
    · exact ih.cons₂ p

theorem dictPop_not_mem (d : List (Str × Str)) (k : Str)
    (h : (d.map Prod.fst).Nodup) :
    k ∉ (dictPop d k).map Prod.fst := by
  induction d with
  | nil => simp [dictPop]
  | cons p rest ih =>
    unfold dictPop
    split
    · rename_i hp
      subst hp
      simp only [List.map_cons, List.nodup_cons] at h
      exact h.1
    · rename_i hp
      simp only [List.map_cons, List.nodup_cons] at h
      intro hmem
      simp only [List.map_cons, List.mem_cons] at hmem
      rcases hmem with h1 | h1
      · exact hp h1.symm
      · exact ih h.2 h1

/-- Case analysis of one draw (train.py lines 66-77): the pool invariant is
preserved; the drawn key is the filename prefix of the drawn file; the drawn
key is removed from the pool before the next draw; the generation is the
post-refill one; and refill happens exactly when the pool was empty. -/
theorem drawOne_spec (listings : Nat → List Str) (st : FeederState) (c : Nat)
    (d : Draw) (st1 : FeederState) (hinv : FeederInv st)
    (h : drawOne listings st c = some (d, st1)) :
    FeederInv st1 ∧ d.key = fileKey d.file ∧ d.gen = st1.gen ∧
      st.gen ≤ st1.gen ∧ d.key ∉ st1.files.map Prod.fst ∧
      (st.files ≠ [] → st1.gen = st.gen ∧ (d.key, d.file) ∈ st.files ∧
        ∀ q ∈ st1.files, q ∈ st.files) ∧
      (st.files = [] → st1.gen = st.gen + 1 ∧
        (d.key, d.file) ∈ buildFiles (listings (st.gen + 1))) := by
  unfold drawOne drawFromPool refillIfEmpty at h
  by_cases hempty : st.files = []
  case pos =>
    rw [if_pos hempty] at h
    set P : FeederState :=
      { files := buildFiles (listings (st.gen + 1)), usedFiles := [],
        gen := st.gen + 1 } with hP
    have hPinv : (P.files.map Prod.fst).Nodup ∧ ∀ p ∈ P.files, p.1 = fileKey p.2 :=
      buildFiles_inv (listings (st.gen + 1))
    split at h
    · exact absurd h (by simp)
    · rename_i key hk
      split at h
      · exact absurd h (by simp)
      · rename_i file hg
        simp only [Option.some.injEq, Prod.mk.injEq] at h
        obtain ⟨hd, hst1⟩ := h
        have hmem : (key, file) ∈ P.files := dictGet_mem P.files key file hg
        subst hd
        subst hst1
        refine ⟨⟨?_, ?_⟩, ?_, rfl, Nat.le_succ st.gen, ?_, ?_, ?_⟩
        · exact List.Nodup.sublist ((dictPop_sublist P.files key).map Prod.fst) hPinv.1
        · intro p hp
          exact hPinv.2 p ((dictPop_sublist P.files key).subset hp)
        · exact hPinv.2 (key, file) hmem
        · exact dictPop_not_mem P.files key hPinv.1
        · intro hne; exact absurd hempty hne
        · intro _; exact ⟨rfl, hmem⟩
  case neg =>
    rw [if_neg hempty] at h
    split at h
    · exact absurd h (by simp)
    · rename_i key hk
      split at h
      · exact absurd h (by simp)
      · rename_i file hg
        simp only [Option.some.injEq, Prod.mk.injEq] at h
        obtain ⟨hd, hst1⟩ := h
        have hmem : (key, file) ∈ st.files := dictGet_mem st.files key file hg
        subst hd
        subst hst1
        refine ⟨⟨?_, ?_⟩, ?_, rfl, le_refl _, ?_, ?_, ?_⟩
        · exact List.Nodup.sublist ((dictPop_sublist st.files key).map Prod.fst) hinv.1
        · intro p hp
          exact hinv.2 p ((dictPop_sublist st.files key).subset hp)
        · exact hinv.2 (key, file) hmem
        · exact dictPop_not_mem st.files key hinv.1
        · intro _
          exact ⟨rfl, hmem, fun q hq => (dictPop_sublist st.files key).subset hq⟩
        · intro habs; exact absurd habs hempty

/-! ### Helper lemmas: the `__getitem__` loop -/

theorem getItemLoop_spec (listings : Nat → List Str) (L : Nat) (sym : Str) :
    ∀ (cs : List Nat) (st : FeederState)
      (pairs : List (Draw × List (List Nat))) (st' : FeederState),
    FeederInv st → getItemLoop listings L sym cs st = some (pairs, st') →
    FeederInv st' ∧ st.gen ≤ st'.gen ∧ pairs.length = cs.length ∧
      ∀ p ∈ pairs, encodeLabel L sym (labelOf p.1.key) = some p.2 ∧
        p.1.key = fileKey p.1.file ∧ st.gen ≤ p.1.gen ∧
        (p.1.gen = st.gen → p.1.key ∈ st.files.map Prod.fst) := by
  intro cs
  induction cs with
  | nil =>
    intro st pairs st' hinv h
    simp only [getItemLoop, Option.some.injEq, Prod.mk.injEq] at h
    obtain ⟨h1, h2⟩ := h
    subst h1; subst h2
    exact ⟨hinv, le_refl _, rfl, by simp⟩
  | cons c cs ih =>
    intro st pairs st' hinv h
    simp only [getItemLoop] at h
    split at h
    · exact absurd h (by simp)
    · rename_i d st1 hdraw
      split at h
      · exact absurd h (by simp)
      · rename_i e he
        split at h
        · exact absurd h (by simp)
        · rename_i rest st'' hrest
          simp only [Option.some.injEq, Prod.mk.injEq] at h
          obtain ⟨h1, h2⟩ := h
          subst h1; subst h2
          obtain ⟨hinv1, hkeyfn, hgen, hge, hnot, hne, hemp⟩ :=
            drawOne_spec listings st c d st1 hinv hdraw
          obtain ⟨hinv', hge', hlen, hall⟩ := ih st1 rest st'' hinv1 hrest
          refine ⟨hinv', le_trans hge hge', by simpa using hlen, ?_⟩
          intro p hp
          rcases List.mem_cons.mp hp with h1 | h1
          · subst h1
            refine ⟨he, hkeyfn, ?_, ?_⟩
            · show st.gen ≤ d.gen
              omega
            · show d.gen = st.gen → d.key ∈ st.files.map Prod.fst
              intro hdgen
              by_cases hfiles : st.files = []
              · obtain ⟨hg1, _⟩ := hemp hfiles
                omega
              · obtain ⟨hg1, hmem, _⟩ := hne hfiles
                exact List.mem_map.mpr ⟨(d.key, d.file), hmem, rfl⟩
          · obtain ⟨henc, hkf, hge2, himpl⟩ := hall p h1
            refine ⟨henc, hkf, by omega, ?_⟩
            intro hpgen
            have hg1 : st1.gen = st.gen := by omega
            by_cases hfiles : st.files = []
            · obtain ⟨hg2, _⟩ := hemp hfiles
              omega
            · obtain ⟨_, _, hsub⟩ := hne hfiles
              have hkey1 : p.1.key ∈ st1.files.map Prod.fst := himpl (by omega)
              obtain ⟨q, hq, hqk⟩ := List.mem_map.mp hkey1
              exact List.mem_map.mpr ⟨q, hsub q hq, hqk⟩

theorem getItemLoop_pairwise (listings : Nat → List Str) (L : Nat) (sym : Str) :
    ∀ (cs : List Nat) (st : FeederState)
      (pairs : List (Draw × List (List Nat))) (st' : FeederState),
    FeederInv st → getItemLoop listings L sym cs st = some (pairs, st') →
    (pairs.map Prod.fst).Pairwise
      (fun d1 d2 => d1.gen = d2.gen → d1.file ≠ d2.file) := by
  intro cs
  induction cs with
  | nil =>
    intro st pairs st' hinv h
    simp only [getItemLoop, Option.some.injEq, Prod.mk.injEq] at h
    obtain ⟨h1, _⟩ := h
    subst h1
    simp
  | cons c cs ih =>
    intro st pairs st' hinv h
    simp only [getItemLoop] at h
    split at h
    · exact absurd h (by simp)
    · rename_i d st1 hdraw
      split at h
      · exact absurd h (by simp)
      · rename_i e he
        split at h
        · exact absurd h (by simp)
        · rename_i rest st'' hrest
          simp only [Option.some.injEq, Prod.mk.injEq] at h
          obtain ⟨h1, h2⟩ := h
          subst h1
          obtain ⟨hinv1, hkeyfn, hgen, hge, hnot, _, _⟩ :=
            drawOne_spec listings st c d st1 hinv hdraw
          obtain ⟨_, _, _, hall⟩ :=
            getItemLoop_spec listings L sym cs st1 rest st'' hinv1 hrest
          rw [List.map_cons, List.pairwise_cons]
          constructor
          · intro d' hd' hsamegen hsamefile
            have hsg : d.gen = d'.gen := hsamegen
            have hsf : d.file = d'.file := hsamefile
            obtain ⟨p, hp, hpd⟩ := List.mem_map.mp hd'
            obtain ⟨_, hkf, hge2, himpl⟩ := hall p hp
            rw [hpd] at hkf hge2 himpl
            have hd'gen : d'.gen = st1.gen := by omega
            have hkey : d'.key ∈ st1.files.map Prod.fst := himpl hd'gen
            have : d.key = d'.key := by
              rw [hkeyfn, hkf, hsf]
            rw [this] at hnot
            exact hnot hkey
          · exact ih st1 rest st'' hinv1 hrest

theorem getD_map_of_lt {α β : Type} (f : α → β) (l : List α) (i : Nat)
    (d : β) (d' : α) (h : i < l.length) :
    (l.map f).getD i d = f (l.getD i d') := by
  simp [List.getD_eq_getElem?_getD, List.getElem?_map, List.getElem?_eq_getElem h]

theorem buildY_length (L : Nat) (encs : List (List (List Nat))) :
    (buildY L encs).length = L := by
  simp [buildY]

theorem buildY_getD (L : Nat) (encs : List (List (List Nat))) (j : Nat)
    (h : j < L) :
    (buildY L encs).getD j [] = encs.map (fun e => e.getD j []) := by
  unfold buildY
  rw [getD_map_of_lt (fun j => encs.map (fun e => e.getD j [])) (List.range L)
    j _ 0 (by simpa using h)]
  congr 1
  simp [List.getD_eq_getElem?_getD, List.getElem?_range h]

theorem mem_buildY (L : Nat) (encs : List (List (List Nat)))
    (arr : List (List Nat)) (h : arr ∈ buildY L encs) :
    ∃ j, j < L ∧ arr = encs.map (fun e => e.getD j []) := by
  unfold buildY at h
  obtain ⟨j, hj, rfl⟩ := List.mem_map.mp h
  exact ⟨j, List.mem_range.mp hj, rfl⟩

theorem getItemLoop_encodes (listings : Nat → List Str) (L : Nat) (sym : Str) :
    ∀ (cs : List Nat) (st : FeederState)
      (pairs : List (Draw × List (List Nat))) (st' : FeederState),
    getItemLoop listings L sym cs st = some (pairs, st') →
    pairs.length = cs.length ∧
      ∀ p ∈ pairs, encodeLabel L sym (labelOf p.1.key) = some p.2 := by
  intro cs
  induction cs with
  | nil =>
    intro st pairs st' h
    simp only [getItemLoop, Option.some.injEq, Prod.mk.injEq] at h
    obtain ⟨h1, _⟩ := h
    subst h1
    exact ⟨rfl, by simp⟩
  | cons c cs ih =>
    intro st pairs st' h
    simp only [getItemLoop] at h
    split at h
    · exact absurd h (by simp)
    · rename_i d st1 hdraw
      split at h
      · exact absurd h (by simp)
      · rename_i e he
        split at h
        · exact absurd h (by simp)
        · rename_i rest st'' hrest
          simp only [Option.some.injEq, Prod.mk.injEq] at h
          obtain ⟨h1, _⟩ := h
          subst h1
          obtain ⟨hlen, hall⟩ := ih st1 rest st'' hrest
          refine ⟨by simpa using hlen, ?_⟩
          intro p hp
          rcases List.mem_cons.mp hp with h1 | h1
          · subst h1; exact he
          · exact hall p h1

theorem getItem_destruct (listings : Nat → List Str) (L : Nat) (sym : Str)
    (st : FeederState) (cs : List Nat) (y : List (List (List Nat)))
    (st' : FeederState) (ds : List Draw)
    (h : getItem listings L sym st cs = some (y, st', ds)) :
    ∃ pairs, getItemLoop listings L sym cs st = some (pairs, st') ∧
      y = buildY L (pairs.map Prod.snd) ∧ ds = pairs.map Prod.fst := by
  unfold getItem at h
  split at h
  · exact absurd h (by simp)
  · rename_i pairs st'' hloop
    simp only [Option.some.injEq, Prod.mk.injEq] at h
    obtain ⟨h1, h2, h3⟩ := h
    subst h1; subst h2; subst h3
    exact ⟨pairs, hloop, rfl, rfl⟩

theorem dictInsert_length_le (d : List (Str × Str)) (k v : Str) :
    (dictInsert d k v).length ≤ d.length + 1 := by
  unfold dictInsert
  split
  · simp
  · simp

theorem buildFiles_length_le (fl : List Str) :
    (buildFiles fl).length ≤ fl.length := by
  unfold buildFiles
  suffices h : ∀ (fl : List Str) (d : List (Str × Str)),
      (fl.foldl (fun d f => dictInsert d (fileKey f) f) d).length ≤
        d.length + fl.length by
    simpa using h fl []
  intro fl
  induction fl with
  | nil => intro d; simp
  | cons f fl ih =>
    intro d
    calc (List.foldl (fun d f => dictInsert d (fileKey f) f)
            (dictInsert d (fileKey f) f) fl).length
        ≤ (dictInsert d (fileKey f) f).length + fl.length := ih _
      _ ≤ (d.length + 1) + fl.length :=
          Nat.add_le_add_right (dictInsert_length_le d (fileKey f) f) _
      _ = d.length + (f :: fl).length := by simp; omega

/-! ### Claim theorems -/

/-- C1, counterexample: the claim says an unmapped label character leaves the
per-position row all-zero.  It does not: `str.find` returns `-1` and numpy
wraps index `-1` to the last column, so for alphabet `ab` and label `z` the
batch produced by `__getitem__` has the row `[0, 1]`, which is not `[0, 0]`
and has a position set to 1. -/
theorem C1_counterexample :
    ('z' ∉ (['a', 'b'] : Str)) ∧
    getItemY (fun _ => demoListing1) 1 ['a', 'b'] (initFeeder demoListing1) [0] =
      some [[[0, 1]]] ∧
    ¬ ([0, 1] : List Nat) = [0, 0] := by
  refine ⟨by decide, by decide, by decide⟩

/-- C1, amended: for every batch produced by `__getitem__`, if the label
character of sample `i` at position `j` does not occur in the (non-empty)
alphabet, the corresponding per-position label row is not left at zero:
`find` returns `-1`, numpy wraps it, and the row becomes the all-zero row of
width `alphabetSize` with its **last** entry set to 1.  The failure is still
silent (no exception), but a position is set to 1. -/
theorem C1_unmapped_char_sets_last
    (listings : Nat → List Str) (L : Nat) (sym : Str) (st : FeederState)
    (cs : List Nat) (y : List (List (List Nat))) (st' : FeederState)
    (ds : List Draw) (hy : getItem listings L sym st cs = some (y, st', ds))
    (i : Nat) (hi : i < ds.length) (j : Nat)
    (hj : j < (labelOf (ds.getD i ⟨[], [], 0⟩).key).length)
    (hnot : (labelOf (ds.getD i ⟨[], [], 0⟩).key).getD j 'a' ∉ sym)
    (hsym : sym ≠ []) :
    (y.getD j []).getD i [] =
      (List.replicate sym.length 0).set (sym.length - 1) 1 := by
  obtain ⟨pairs, hloop, hy', hds⟩ :=
    getItem_destruct listings L sym st cs y st' ds hy
  subst hy'; subst hds
  obtain ⟨hplen, hall⟩ := getItemLoop_encodes listings L sym cs st pairs st' hloop
  have hi' : i < pairs.length := by simpa using hi
  have hdse : (pairs.map Prod.fst).getD i ⟨[], [], 0⟩ =
      (pairs.getD i (⟨[], [], 0⟩, [])).1 :=
    getD_map_of_lt Prod.fst pairs i ⟨[], [], 0⟩ (⟨[], [], 0⟩, []) hi'
  rw [hdse] at hj hnot
  have hpmem : pairs.getD i (⟨[], [], 0⟩, []) ∈ pairs :=
    getD_mem pairs i (⟨[], [], 0⟩, []) hi'
  have henc := hall _ hpmem
  have hlablen := encodeLabel_some_length_le L sym _ _ henc
  have hjL : j < L := lt_of_lt_of_le hj hlablen
  rw [buildY_getD L (pairs.map Prod.snd) j hjL]
  rw [getD_map_of_lt (fun e => e.getD j []) (pairs.map Prod.snd) i [] []
    (by simpa using hi')]
  rw [getD_map_of_lt Prod.snd pairs i [] (⟨[], [], 0⟩, []) hi']
  rw [encodeLabel_getD_encoded L sym _ _ henc j hj]
  rw [encodeChar_not_mem sym _ hnot hsym]
  rfl

/-- C1, witness for the amended theorem: concrete single-file batch with
label `z` and alphabet `ab`. -/
theorem C1_witness :
    (0 : Nat) < 1 ∧ 'z' ∉ (['a', 'b'] : Str) ∧
    (([[[0, 1]]] : List (List (List Nat))).getD 0 []).getD 0 [] =
      (List.replicate (['a', 'b'] : Str).length 0).set
        ((['a', 'b'] : Str).length - 1) 1 :=
  ⟨by decide, by decide,
    C1_unmapped_char_sets_last (fun _ => demoListing1) 1 ['a', 'b']
      (initFeeder demoListing1) [0] [[[0, 1]]]
      { files := [], usedFiles := [['z', '_', '1', '.', 'p']], gen := 0 }
      [{ key := ['z', '_', '1'], file := ['z', '_', '1', '.', 'p'], gen := 0 }]
      (by decide) 0 (by decide) 0 (by decide) (by decide) (by decide)⟩

/-- C2: in every successful `__getitem__` call starting from a state
satisfying the pool invariant (as `__init__` and every draw establish), no
two draws of the same refill generation — i.e. between two consecutive pool
refills — return the same filename: each draw pops the chosen key from the
pool before the next draw. -/
theorem C2_no_repeat_between_refills (listings : Nat → List Str) (L : Nat)
    (sym : Str) (st : FeederState) (cs : List Nat)
    (y : List (List (List Nat))) (st' : FeederState) (ds : List Draw)
    (hinv : FeederInv st)
    (h : getItem listings L sym st cs = some (y, st', ds)) :
    ds.Pairwise (fun d1 d2 => d1.gen = d2.gen → d1.file ≠ d2.file) := by
  obtain ⟨pairs, hloop, _, hds⟩ := getItem_destruct listings L sym st cs y st' ds h
  subst hds
  exact getItemLoop_pairwise listings L sym cs st pairs st' hinv hloop

/-- C2, witness: a concrete two-draw batch over `demoListing2`. -/
theorem C2_witness :
    FeederInv (initFeeder demoListing2) ∧
    ([{ key := ['a', 'b'], file := ['a', 'b', '.', 'p'], gen := 0 },
      { key := ['b', 'a'], file := ['b', 'a', '.', 'q'], gen := 0 }] :
        List Draw).Pairwise
      (fun d1 d2 => d1.gen = d2.gen → d1.file ≠ d2.file) :=
  ⟨by decide,
    C2_no_repeat_between_refills (fun _ => demoListing2) 2 ['a', 'b']
      (initFeeder demoListing2) [0, 0]
      [[[1, 0], [0, 1]], [[0, 1], [1, 0]]]
      { files := [], usedFiles := [['a', 'b', '.', 'p'], ['b', 'a', '.', 'q']],
        gen := 0 }
      [{ key := ['a', 'b'], file := ['a', 'b', '.', 'p'], gen := 0 },
       { key := ['b', 'a'], file := ['b', 'a', '.', 'q'], gen := 0 }]
      (by decide) (by decide)⟩

/-- C3: for every dataset directory listing and every positive batch size,
`__len__` returns `floor(fileCount / batchSize)` (Nat division is floor
division), where `fileCount` is the number of directory entries listed at
construction time. -/
theorem C3_len_floor (listing : List Str) (batchSize : Nat)
    (h : 0 < batchSize) :
    imageSequenceLen (initCount listing) batchSize =
      some (listing.length / batchSize) := by
  unfold imageSequenceLen initCount
  rw [if_neg (by omega)]

/-- C3, witness: 3 files, batch size 2, length 1. -/
theorem C3_witness :
    (0 : Nat) < 2 ∧
    imageSequenceLen (initCount demoListing3) 2 =
      some (demoListing3.length / 2) :=
  ⟨by decide, C3_len_floor demoListing3 2 (by decide)⟩

/-- C4: every batch produced by `__getitem__` in which every drawn label has
exactly the configured captcha length (and every label character occurs in
the alphabet — a hypothesis the code makes redundant, since any successful
encoding writes exactly one 1 per row) consists of `length` label arrays of
shape `(batchSize, alphabetSize)` whose rows each sum to exactly 1. -/
theorem C4_one_hot (listings : Nat → List Str) (L : Nat) (sym : Str)
    (st : FeederState) (cs : List Nat) (y : List (List (List Nat)))
    (st' : FeederState) (ds : List Draw)
    (h : getItem listings L sym st cs = some (y, st', ds))
    (hlen : ∀ d ∈ ds, (labelOf d.key).length = L)
    (_hmem : ∀ d ∈ ds, ∀ ch ∈ labelOf d.key, ch ∈ sym) :
    y.length = L ∧ ∀ arr ∈ y, arr.length = cs.length ∧
      ∀ row ∈ arr, row.length = sym.length ∧ row.sum = 1 := by
  obtain ⟨pairs, hloop, hy', hds⟩ := getItem_destruct listings L sym st cs y st' ds h
  subst hy'; subst hds
  obtain ⟨hplen, hall⟩ := getItemLoop_encodes listings L sym cs st pairs st' hloop
  refine ⟨buildY_length L _, ?_⟩
  intro arr harr
  obtain ⟨j, hjL, rfl⟩ := mem_buildY L _ arr harr
  constructor
  · simpa using hplen
  · intro row hrow
    obtain ⟨e, he, rfl⟩ := List.mem_map.mp hrow
    obtain ⟨p, hp, rfl⟩ := List.mem_map.mp he
    have henc := hall p hp
    have hlab : (labelOf p.1.key).length = L :=
      hlen p.1 (List.mem_map.mpr ⟨p, hp, rfl⟩)
    have hrows := encodeLabel_sum_one L sym _ p.2 henc hlab
    have hjlt : j < p.2.length := by
      rw [encodeLabel_some_length L sym _ p.2 henc]; exact hjL
    obtain ⟨hsum, hlength⟩ := hrows _ (getD_mem p.2 j [] hjlt)
    exact ⟨hlength, hsum⟩

/-- C4, witness: the two-sample batch over `demoListing2` with alphabet `ab`
and captcha length 2. -/
theorem C4_witness :
    (∀ d ∈ ([{ key := ['a', 'b'], file := ['a', 'b', '.', 'p'], gen := 0 },
             { key := ['b', 'a'], file := ['b', 'a', '.', 'q'], gen := 0 }] :
        List Draw), (labelOf d.key).length = 2) ∧
    ([[[1, 0], [0, 1]], [[0, 1], [1, 0]]] :
        List (List (List Nat))).length = 2 ∧
    ∀ arr ∈ ([[[1, 0], [0, 1]], [[0, 1], [1, 0]]] : List (List (List Nat))),
      arr.length = ([0, 0] : List Nat).length ∧
      ∀ row ∈ arr, row.length = (['a', 'b'] : Str).length ∧ row.sum = 1 :=
  ⟨by decide,
    C4_one_hot (fun _ => demoListing2) 2 ['a', 'b'] (initFeeder demoListing2)
      [0, 0] [[[1, 0], [0, 1]], [[0, 1], [1, 0]]]
      { files := [], usedFiles := [['a', 'b', '.', 'p'], ['b', 'a', '.', 'q']],
        gen := 0 }
      [{ key := ['a', 'b'], file := ['a', 'b', '.', 'p'], gen := 0 },
       { key := ['b', 'a'], file := ['b', 'a', '.', 'q'], gen := 0 }]
      (by decide) (by decide) (by decide)⟩

/-- C5: when the pool is empty at the start of a draw iteration,
`__getitem__` rebuilds the pool as a whole from a fresh directory listing
(the next generation's listing), clears the used-files record, and only then
draws the next sample; consequently one batch can mix two refill
generations, as the concrete two-draw batch over a one-file directory shows
(generations `[0, 1]` inside a single batch). -/
theorem C5_mid_batch_refill :
    (∀ (listings : Nat → List Str) (st : FeederState) (c : Nat),
      st.files = [] →
      drawOne listings st c = drawFromPool
        { files := buildFiles (listings (st.gen + 1)), usedFiles := [],
          gen := st.gen + 1 } c) ∧
    drawGens (getItemLoop (fun _ => demoListing4) 1 ['a'] [0, 0]
      (initFeeder demoListing4)) = some [0, 1] ∧ (0 : Nat) ≠ 1 := by
  refine ⟨?_, by decide, by decide⟩
  intro listings st c hempty
  unfold drawOne refillIfEmpty
  rw [if_pos hempty]

/-- C5, witness: the refill equation applied to a concrete empty-pool
state. -/
theorem C5_witness :
    drawOne (fun _ => demoListing4) { files := [], usedFiles := [], gen := 0 } 0 =
      drawFromPool
        { files := buildFiles demoListing4, usedFiles := [], gen := 1 } 0 :=
  C5_mid_batch_refill.1 (fun _ => demoListing4)
    { files := [], usedFiles := [], gen := 0 } 0 rfl

/-- C6: for every invocation of `main` with a required flag missing, the
process exits with code 1 and the specific message of the *first* missing
flag in the fixed source check order (width, height, length, batch size,
epochs, train dataset, validate dataset, output model name, symbols); the
result is `exitWith`, a constructor that carries no model and no training
result, so no model is built and no training occurs. -/
theorem C6_missing_flag_exits :
    (∀ h l b t v o im e s sym fit,
      mainRun ⟨none, h, l, b, t, v, o, im, e, s⟩ sym fit =
        .exitWith msgWidth 1) ∧
    (∀ w l b t v o im e s sym fit,
      mainRun ⟨some w, none, l, b, t, v, o, im, e, s⟩ sym fit =
        .exitWith msgHeight 1) ∧
    (∀ w h b t v o im e s sym fit,
      mainRun ⟨some w, some h, none, b, t, v, o, im, e, s⟩ sym fit =
        .exitWith msgLength 1) ∧
    (∀ w h l t v o im e s sym fit,
      mainRun ⟨some w, some h, some l, none, t, v, o, im, e, s⟩ sym fit =
        .exitWith msgBatchSize 1) ∧
    (∀ w h l b t v o im s sym fit,
      mainRun ⟨some w, some h, some l, some b, t, v, o, im, none, s⟩ sym fit =
        .exitWith msgEpochs 1) ∧
    (∀ w h l b v o im e s sym fit,
      mainRun ⟨some w, some h, some l, some b, none, v, o, im, some e, s⟩ sym fit =
        .exitWith msgTrainDataset 1) ∧
    (∀ w h l b t o im e s sym fit,
      mainRun ⟨some w, some h, some l, some b, some t, none, o, im, some e, s⟩
        sym fit = .exitWith msgValidateDataset 1) ∧
    (∀ w h l b t v im e s sym fit,
      mainRun ⟨some w, some h, some l, some b, some t, some v, none, im, some e, s⟩
        sym fit = .exitWith msgOutputModelName 1) ∧
    (∀ w h l b t v o im e sym fit,
      mainRun ⟨some w, some h, some l, some b, some t, some v, some o, im,
        some e, none⟩ sym fit = .exitWith msgSymbols 1) := by
  refine ⟨?_, ?_, ?_, ?_, ?_, ?_, ?_, ?_, ?_⟩ <;> (intros; rfl)

/-- C7: a `KeyboardInterrupt` raised during `model.fit` is caught: `main`
prints the message, saves the weights to `<output-model-name>_resume.h5`,
and returns normally (`.ok`); normal completion also returns normally; any
other exception propagates uncaught (`.error`). -/
theorem C7_interrupt_saves_resume (name : String) :
    trainBlockResult name (.raised .keyboardInterrupt) =
      .ok [.fitCalled,
           .printed ("KeyboardInterrupt caught, saving current weights as "
             ++ name ++ "_resume.h5"),
           .savedWeights (name ++ "_resume.h5")] ∧
    trainBlockResult name .completed = .ok [.fitCalled] ∧
    ∀ excName : String, trainBlockResult name (.raised (.other excName)) =
      .error (.other excName) :=
  ⟨rfl, rfl, fun _ => rfl⟩

/-- C8: for every captcha length `N` and alphabet size `S`, `create_model`
produces a network with exactly `N` output heads, each a softmax `Dense`
layer of width `S`, named `char_1` through `char_N`, all attached (by the
structure of `Model`) to the single shared convolutional trunk. -/
theorem C8_model_heads (N S : Nat) (shape : Nat × Nat × Nat) :
    (create_model N S shape).heads.length = N ∧
    (∀ hd ∈ (create_model N S shape).heads,
      hd.units = S ∧ hd.activation = "softmax") ∧
    (create_model N S shape).heads.map DenseHead.name =
      (List.range N).map (fun i => charName (i + 1)) ∧
    (create_model N S shape).trunk = trunkLayers 5 2 := by
  refine ⟨by simp [create_model], ?_, ?_, rfl⟩
  · intro hd hmem
    simp only [create_model, List.mem_map] at hmem
    obtain ⟨i, _, rfl⟩ := hmem
    exact ⟨rfl, rfl⟩
  · simp only [create_model, List.map_map]
    rfl

/-- C9: the pool is keyed by the filename prefix before the first `'.'`: in
any pool state satisfying the invariant, two distinct files sharing that
prefix are never both present; `self.count` still counts all directory
entries; the pool is never larger than the listing; and on the concrete
listing with a duplicated prefix the pool has 2 entries while the count is
3, so three draws already cross a refill (generations `[0, 0, 1]`) — the
pool exhausts and refills before `fileCount` draws are made. -/
theorem C9_pool_key_collision :
    (∀ st : FeederState, FeederInv st → ∀ f1 f2 : Str,
      f1 ∈ st.files.map Prod.snd → f2 ∈ st.files.map Prod.snd →
      fileKey f1 = fileKey f2 → f1 = f2) ∧
    (∀ fl : List Str, initCount fl = fl.length) ∧
    (∀ fl : List Str, (buildFiles fl).length ≤ fl.length) ∧
    (buildFiles demoListing3).length = 2 ∧
    initCount demoListing3 = 3 ∧
    drawGens (getItemLoop (fun _ => demoListing3) 1 ['a', 'b'] [0, 0, 0]
      (initFeeder demoListing3)) = some [0, 0, 1] := by
  refine ⟨?_, fun _ => rfl, buildFiles_length_le, by decide, by decide, by decide⟩
  intro st hinv f1 f2 h1 h2 hkey
  obtain ⟨p1, hp1, hp1e⟩ := List.mem_map.mp h1
  obtain ⟨p2, hp2, hp2e⟩ := List.mem_map.mp h2
  have hk1 : p1.1 = fileKey f1 := by rw [hinv.2 p1 hp1, hp1e]
  have hk2 : p2.1 = fileKey f2 := by rw [hinv.2 p2 hp2, hp2e]
  have hfst : p1.1 = p2.1 := by rw [hk1, hk2, hkey]
  have hpp := List.inj_on_of_nodup_map hinv.1 hp1 hp2 hfst
  rw [← hp1e, ← hp2e, hpp]

/-- C9, witness: the mutual-exclusion part applied to the concrete pool of
`demoListing3`. -/
theorem C9_witness :
    FeederInv (initFeeder demoListing3) ∧
    (['a', '.', 'q'] : Str) ∈ (initFeeder demoListing3).files.map Prod.snd ∧
    (['a', '.', 'q'] : Str) = ['a', '.', 'q'] :=
  ⟨by decide, by decide,
    C9_pool_key_collision.1 (initFeeder demoListing3) (by decide)
      ['a', '.', 'q'] ['a', '.', 'q'] (by decide) (by decide) rfl⟩

/-- C10: a drawn label longer than the configured captcha length makes the
label-encoding loop raise an out-of-range error instead of truncating
(`encodeLabel` is `none`), and consequently every successful `__getitem__`
batch only contains draws whose labels have length at most the configured
captcha length. -/
theorem C10_long_label_raises (L : Nat) (sym : Str) :
    (∀ label : Str, L < label.length → encodeLabel L sym label = none) ∧
    (∀ (listings : Nat → List Str) (st : FeederState) (cs : List Nat)
      (y : List (List (List Nat))) (st' : FeederState) (ds : List Draw),
      getItem listings L sym st cs = some (y, st', ds) →
      ∀ d ∈ ds, (labelOf d.key).length ≤ L) := by
  constructor
  · exact fun label h => encodeLabel_none_of_long L sym label h
  · intro listings st cs y st' ds h d hd
    obtain ⟨pairs, hloop, _, hds⟩ :=
      getItem_destruct listings L sym st cs y st' ds h
    subst hds
    obtain ⟨_, hall⟩ := getItemLoop_encodes listings L sym cs st pairs st' hloop
    obtain ⟨p, hp, rfl⟩ := List.mem_map.mp hd
    exact encodeLabel_some_length_le L sym _ p.2 (hall p hp)

/-- C10, witness: a two-character label with captcha length 1. -/
theorem C10_witness :
    1 < (['a', 'b'] : Str).length ∧
    encodeLabel 1 ['a', 'b'] ['a', 'b'] = none :=
  ⟨by decide, (C10_long_label_raises 1 ['a', 'b']).1 ['a', 'b'] (by decide)⟩

end CaptchaTrain
